import Mathlib

/-! Verification of the `find-dups` content-comparison engine
(`src/main.rs`).

The Rust program walks two forests of directories ("left" and "right"),
computes the SHA-256 digest of every regular file, buckets paths by digest
per side, and reconciles the two buckets into a three-way partition
(left-only / both / right-only).

This file gives a shallow embedding of the program's pure core:
  * `Sha256Sum`, `PathLocation`, `WorkResult`, `Work`, `Args`, `Locations`
    mirror the Rust types of the same names;
  * Rust's `HashMap<Sha256Sum, Vec<PathBuf>>` is modelled as an association
    list (`HashBucket`) whose key-uniqueness (`(keysOf m).Nodup`) is the
    invariant the real `HashMap` maintains by construction;
  * `add_to_result_hash_map`, `split_into_locations`, `fingerprint_one_file`,
    `handle_dir_work`, `enqueue_initial_work_for_side`,
    `start_worker_threads` are translated from the functions of the same
    names; partial operations (Rust `unwrap`/`assert!` panics) are modelled
    with `Option`, `none` standing for a panic;
  * the result-collection loop of `main` is modelled by `collectResults`;
  * the self-expanding task queue and its capability-based termination
    signal are modelled by a sequential scheduler over a concrete finite
    filesystem forest (`FsTree`, `walkStep`).
-/

namespace FindDups

/-- Filesystem paths (Rust `path::PathBuf`), modelled as strings. -/
abbrev PathBuf := String

/-- `std::io::Error`, modelled by its message. -/
abbrev IOErr := String

/-- Rust `type Sha256Sum = [u8; 32]`: a 32-entry byte array. -/
abbrev Sha256Sum := { l : List Nat // l.length = 32 }

/-- Rust `enum PathLocation { Left(PathBuf), Right(PathBuf) }`: a path tagged
with the comparison side it belongs to. -/
inductive PathLocation
  | left (p : PathBuf)
  | right (p : PathBuf)
deriving DecidableEq

/-- `PathLocation::new_same_side`: retag a path with `other`'s side. -/
def PathLocation.new_same_side (other : PathLocation) (p : PathBuf) : PathLocation :=
  match other with
  | .left _ => .left p
  | .right _ => .right p

/-- `PathLocation::path`: the underlying path. -/
def PathLocation.path : PathLocation → PathBuf
  | .left p => p
  | .right p => p

/-- Rust `struct WorkResult { path, result: io::Result<Sha256Sum> }`. -/
structure WorkResult where
  path : PathLocation
  result : Except IOErr Sha256Sum

/-- `WorkResult::from_err`. -/
def WorkResult.from_err (path : PathLocation) (e : IOErr) : WorkResult :=
  ⟨path, .error e⟩

/-- `WorkResult::from_hash`. -/
def WorkResult.from_hash (path : PathLocation) (h : Sha256Sum) : WorkResult :=
  ⟨path, .ok h⟩

/-- `work_result.result.is_err()`. -/
def WorkResult.isErr (wr : WorkResult) : Bool :=
  match wr.result with
  | .error _ => true
  | .ok _ => false

/-- Rust `enum Work`: a unit of queued work. The `Directory` variant of the
source additionally carries a clone of the work-channel `Sender`
(the submission capability); that capability is modelled separately by the
scheduler below. -/
inductive Work
  | directory (path : PathLocation)
  | file (path : PathLocation)
deriving DecidableEq

/-! Section: Hash buckets

`HashMap<Sha256Sum, Vec<path::PathBuf>>` as an association list. A real
`HashMap` never holds two entries with the same key; theorems that depend on
that carry the hypothesis `(keysOf m).Nodup`. -/

/-- One side's digest-to-paths map. -/
abbrev HashBucket := List (Sha256Sum × List PathBuf)

/-- The keys of a bucket (`map.keys()`). -/
def keysOf (m : HashBucket) : List Sha256Sum := m.map Prod.fst

/-- Key lookup (`map.get(k)`). -/
def getValue? : HashBucket → Sha256Sum → Option (List PathBuf)
  | [], _ => none
  | e :: rest, k => if e.1 = k then some e.2 else getValue? rest k

/-- `map.contains_key(k)`. -/
def containsKey (m : HashBucket) (k : Sha256Sum) : Bool :=
  (getValue? m k).isSome

/-- Lookup defaulting to the empty path list. -/
def getD (m : HashBucket) (k : Sha256Sum) : List PathBuf :=
  (getValue? m k).getD []

/-- `map.remove(k)`: the removed value, if any, and the remaining map. -/
def removeEntry : HashBucket → Sha256Sum → Option (List PathBuf) × HashBucket
  | [], _ => (none, [])
  | e :: rest, k =>
    if e.1 = k then (some e.2, rest)
    else
      let pr := removeEntry rest k
      (pr.1, e :: pr.2)

/-- `fn add_to_result_hash_map`: `map.entry(hash).or_insert_with(Vec::new).push(path)` —
append `p` at the end of the existing list for `hash`, or create the
entry `(hash, [p])`. -/
def add_to_result_hash_map : HashBucket → Sha256Sum → PathBuf → HashBucket
  | [], hash, p => [(hash, [p])]
  | e :: rest, hash, p =>
    if e.1 = hash then (e.1, e.2 ++ [p]) :: rest
    else e :: add_to_result_hash_map rest hash p

/-- Every path stored in a bucket, in entry order. -/
def allPaths (m : HashBucket) : List PathBuf := (m.map Prod.snd).flatten

/-! Section: The result-collection loop of `main` (lines 85-100) -/

/-- The state of `main`'s collection loop: the two buckets plus the
diagnostic sink (`eprintln!`-reported error results, in emission order). -/
structure CollectState where
  left : HashBucket
  right : HashBucket
  diagnostics : List WorkResult

/-- One iteration of `main`'s `for work_result in results_receiver.iter()`
loop: an error result goes to the diagnostic sink; a success result is
appended to its side's bucket under its digest. -/
def collectStep (s : CollectState) (wr : WorkResult) : CollectState :=
  match wr.result with
  | .error _ => { s with diagnostics := s.diagnostics ++ [wr] }
  | .ok sum =>
    match wr.path with
    | .left p => { s with left := add_to_result_hash_map s.left sum p }
    | .right p => { s with right := add_to_result_hash_map s.right sum p }

/-- Draining the whole result stream from the empty initial state. -/
def collectResults (rs : List WorkResult) : CollectState :=
  rs.foldl collectStep ⟨[], [], []⟩

/-! Section: `split_into_locations` (lines 353-391) -/

/-- Rust `struct Locations`. -/
structure Locations where
  left : List PathBuf
  both : List (List PathBuf × List PathBuf)
  right : List PathBuf
deriving DecidableEq

/-- `keys_in_both`: the digests of `l` that also occur in `r`
(`left.keys().filter(|k| right.contains_key(k))`; the Rust code collects
them into a `HashSet`, which on a map with unique keys is the same key
collection). -/
def keysInBoth (l r : HashBucket) : List Sha256Sum :=
  (keysOf l).filter (fun k => containsKey r k)

/-- The loop building `both_results`: for each shared digest, remove its
entry from both maps and pair the two path lists. The two `.unwrap()` calls
of the source panic when a removal returns `None`; that panic is modelled
by `none`. -/
def removeMatches : List Sha256Sum → HashBucket → HashBucket →
    Option (List (List PathBuf × List PathBuf) × HashBucket × HashBucket)
  | [], l, r => some ([], l, r)
  | k :: ks, l, r =>
    match removeEntry l k, removeEntry r k with
    | (some lv, l2), (some rv, r2) =>
      match removeMatches ks l2 r2 with
      | some (b, lf, rf) => some ((lv, rv) :: b, lf, rf)
      | none => none
    | _, _ => none

/-- `fn split_into_locations`: partition two fully populated buckets into
left-only paths, per-digest both-side pairs, and right-only paths.
`none` models an `unwrap` panic. -/
def split_into_locations (l r : HashBucket) : Option Locations :=
  match removeMatches (keysInBoth l r) l r with
  | none => none
  | some (b, lf, rf) =>
    some ⟨(lf.map Prod.snd).flatten, b, (rf.map Prod.snd).flatten⟩

/-! Section: `fingerprint_one_file` (lines 333-345)

The SHA-256 compression itself lives in the external `sha2` crate; the
digest function is therefore a parameter `sha : List Nat → Sha256Sum` from
full byte content to the 32-byte digest. The streaming `io::copy` into the
hasher is modelled by accumulating the bytes the hasher has consumed. -/

/-- The outcome of streaming an opened file: either the complete content
arrives, or reading fails after some chunks. -/
inductive ReadOutcome
  | complete (chunks : List (List Nat))
  | failAfter (goodChunks : List (List Nat)) (e : IOErr)

/-- The behaviour of the filesystem for one file: `fs::File::open` either
fails or yields a stream with outcome `ReadOutcome`. -/
structure FileData where
  openResult : Except IOErr ReadOutcome

/-- `io::copy(&mut file, &mut hasher)`: feed the stream into the hasher
(whose state is the byte list consumed so far) and return the hasher state
on success, or the read error. -/
def ioCopy (hasher : List Nat) : ReadOutcome → Except IOErr (List Nat)
  | .complete cs => .ok (hasher ++ cs.flatten)
  | .failAfter _ e => .error e

/-- `fn fingerprint_one_file`: open, stream through SHA-256, return the
digest, or the error at whichever step failed. -/
def fingerprint_one_file (sha : List Nat → Sha256Sum) (path : PathLocation)
    (fd : FileData) : WorkResult :=
  match fd.openResult with
  | .error e => WorkResult.from_err path e
  | .ok ro =>
    match ioCopy [] ro with
    | .error e => WorkResult.from_err path e
    | .ok bytes => WorkResult.from_hash path (sha bytes)

/-! Section: `handle_dir_work` (lines 261-323)

Directory expansion, driven by the entries `fs::read_dir` yields. Each
entry is either an enumeration error or an entry with a path and a
filesystem kind. The source's `assert!(entry_path.is_file())` on a kind
that is neither symlink, directory nor file panics; `none` models that
panic. -/

/-- What a directory entry turned out to be. -/
inductive EntryKind
  | dir
  | file
  | symlink
  | other
deriving DecidableEq

/-- A successfully enumerated directory entry. -/
structure DirEntry where
  path : PathBuf
  kind : EntryKind
deriving DecidableEq

/-- One item of the `read_dir` iterator: `io::Result<DirEntry>`. -/
abbrev EntryResult := Except IOErr DirEntry

/-- The error message of the symlink rejection in `handle_dir_work`. -/
def symlinkMessage : IOErr := "Symlinks are not supported. Ignoring."

/-- The body of `handle_dir_work`'s `for entry in read_dir` loop for one
entry: the results sent and the work submitted, or `none` for the
`assert!` panic on an unclassifiable entry. -/
def entryStep (parent : PathLocation) : EntryResult →
    Option (List WorkResult × List Work)
  | .error e => some ([WorkResult.from_err parent e], [])
  | .ok entry =>
    match entry.kind with
    | .symlink =>
      some ([WorkResult.from_err (PathLocation.new_same_side parent entry.path)
              symlinkMessage], [])
    | .dir =>
      some ([], [Work.directory (PathLocation.new_same_side parent entry.path)])
    | .file =>
      some ([], [Work.file (PathLocation.new_same_side parent entry.path)])
    | .other => none

/-- `handle_dir_work`'s entry loop over a whole entry listing, concatenating
the per-entry emissions in order. -/
def handleEntries (parent : PathLocation) :
    List EntryResult → Option (List WorkResult × List Work)
  | [] => some ([], [])
  | er :: rest =>
    match entryStep parent er with
    | none => none
    | some (rs, ws) =>
      match handleEntries parent rest with
      | none => none
      | some (rs2, ws2) => some (rs ++ rs2, ws ++ ws2)

/-- `fn handle_dir_work`: if `fs::read_dir` itself fails, one error result
tagged with the directory's own path is sent and expansion ends; otherwise
the entry loop runs. -/
def handle_dir_work (parent : PathLocation)
    (readDir : Except IOErr (List EntryResult)) :
    Option (List WorkResult × List Work) :=
  match readDir with
  | .error e => some ([WorkResult.from_err parent e], [])
  | .ok entries => handleEntries parent entries

/-! Section: `enqueue_initial_work_for_side` (lines 176-230) -/

/-- What `path.metadata()` reports a root to be. -/
inductive MetaKind
  | dir
  | file
  | other
deriving DecidableEq

/-- The filesystem facts root resolution consults for one configured root:
the `path.is_symlink()` answer and the `path.metadata()` outcome. -/
structure RootInfo where
  path : PathBuf
  isSymlink : Bool
  metadata : Except IOErr MetaKind

/-- The `eprintln!` warnings of root resolution. -/
inductive RootWarning
  | symlinkRoot (p : PathBuf)
  | statFailure (p : PathBuf) (e : IOErr)
deriving DecidableEq

/-- The body of `enqueue_initial_work_for_side`'s loop for one root:
the warnings printed and the work enqueued, or `none` for the `assert!`
panic on a root that is neither symlink, directory nor file. -/
def rootStep (factory : PathBuf → PathLocation) (root : RootInfo) :
    Option (List RootWarning × List Work) :=
  if root.isSymlink then some ([.symlinkRoot root.path], [])
  else
    match root.metadata with
    | .error e => some ([.statFailure root.path e], [])
    | .ok .dir => some ([], [Work.directory (factory root.path)])
    | .ok .file => some ([], [Work.file (factory root.path)])
    | .ok .other => none

/-- `fn enqueue_initial_work_for_side`: resolve each configured root in
order, concatenating warnings and seed work; `none` models the `assert!`
panic aborting the process. -/
def enqueue_initial_work_for_side (factory : PathBuf → PathLocation) :
    List RootInfo → Option (List RootWarning × List Work)
  | [] => some ([], [])
  | root :: rest =>
    match rootStep factory root with
    | none => none
    | some (ws, wk) =>
      match enqueue_initial_work_for_side factory rest with
      | none => none
      | some (ws2, wk2) => some (ws ++ ws2, wk ++ wk2)

/-! Section: `Args` (lines 19-45) -/

/-- Rust `struct Args` as declared for `clap`'s derive. -/
structure Args where
  left : List String
  right : List String
  omit_left : Bool
  omit_right : Bool
  show_both : Bool

/-- Models the `clap` semantics of the `#[arg(required = true)]` attribute
declared on both `Args.left` and `Args.right`: parsing an invocation
succeeds only if each of the two options appears at least once, i.e. both
root lists are non-empty. -/
def argsAccepted (a : Args) : Bool :=
  !a.left.isEmpty && !a.right.isEmpty

/-! Section: `start_worker_threads` (lines 232-259) -/

/-- `thread::available_parallelism().unwrap_or(NonZeroUsize::new(2).unwrap())`:
the detected hardware parallelism, or 2 when detection fails. -/
def numWorkerThreads (detected : Except IOErr Nat) : Nat :=
  match detected with
  | .ok n => n
  | .error _ => 2

/-- `fn start_worker_threads`: spawn one worker per computed thread count
(the returned list stands for the vector of join handles, one entry per
spawned worker). -/
def start_worker_threads (detected : Except IOErr Nat) : List Nat :=
  List.range (numWorkerThreads detected)

/-! Section: The task queue and its capability-based termination (C2)

The queue's termination signal is crossbeam's channel-disconnect: the
receiver iteration of each worker ends once the channel is empty and every
`Sender` clone has been dropped. One `Sender` clone travels inside each
queued `Work::Directory` (and one is held while a directory is being
expanded); the seeding clone is dropped before the workers start.

To reason about termination we instantiate the queue over a concrete
finite filesystem forest and collapse the concurrent workers into a
sequential scheduler that repeatedly takes the front task and runs the
corresponding handler; the enqueues of `handle_dir_work` become appending
the children's tasks. -/

/-- A finite, acyclic filesystem tree (symlinks are leaves because they are
rejected rather than followed). -/
inductive FsTree
  | file (p : PathBuf)
  | dir (p : PathBuf) (children : List FsTree)
  | symlink (p : PathBuf)

/-- A queued task over a concrete forest: `Work::Directory` carries the
directory's children (and, implicitly, one live `Sender` clone — one
submission capability); `Work::File` carries none. -/
inductive WalkTask
  | dir (children : List FsTree)
  | file

/-- Whether a queued task is a directory task, i.e. holds a capability. -/
def WalkTask.isDir : WalkTask → Bool
  | .dir _ => true
  | .file => false

/-- The number of live submission capabilities: one per queued directory
task. -/
def liveCapabilities (q : List WalkTask) : Nat :=
  (q.filter WalkTask.isDir).length

/-- Classify one child during directory expansion, as `handle_dir_work`
does: a subdirectory is submitted as a new directory task carrying a fresh
capability, a file as a file task, a symlink only produces an error result
and no task. -/
def expandChild : FsTree → List WalkTask
  | .file _ => [.file]
  | .dir _ cs => [.dir cs]
  | .symlink _ => []

/-- One scheduler step: take the front task; a file task is hashed and
yields nothing new; a directory task submits its children's tasks and then
drops its capability. An empty queue is left unchanged. -/
def walkStep : List WalkTask → List WalkTask
  | [] => []
  | .file :: rest => rest
  | .dir cs :: rest => rest ++ cs.flatMap expandChild

/-- Iterated scheduler steps. -/
def walkStepN : Nat → List WalkTask → List WalkTask
  | 0, q => q
  | n + 1, q => walkStepN n (walkStep q)

mutual
/-- Total number of scheduler steps a tree will cost once submitted. -/
def treeWork : FsTree → Nat
  | .file _ => 1
  | .symlink _ => 0
  | .dir _ cs => 1 + forestWork cs

/-- Total number of scheduler steps a forest will cost. -/
def forestWork : List FsTree → Nat
  | [] => 0
  | t :: ts => treeWork t + forestWork ts
end

/-- Steps a queued task will cost. -/
def taskWork : WalkTask → Nat
  | .file => 1
  | .dir cs => 1 + forestWork cs

/-- Steps the whole queue will cost: the scheduler's termination measure. -/
def queueWork (q : List WalkTask) : Nat :=
  (q.map taskWork).sum

/-- Seeding the queue from already-resolved roots, as root resolution does:
a directory root becomes a directory task, a file root a file task, a
symlink root is warned about and contributes nothing. -/
def seedQueue (roots : List FsTree) : List WalkTask :=
  roots.flatMap expandChild

/-- The queue's completion signal, as every worker's `receiver.iter()`
observes it: the channel is empty and no `Sender` clone — no submission
capability — is live. -/
def completionSignal (q : List WalkTask) : Prop :=
  q = [] ∧ liveCapabilities q = 0

/-! Concrete data used by the witness theorems. -/

/-- A concrete digest (32 bytes of value 1) for witness instances. -/
def sumA : Sha256Sum := ⟨List.replicate 32 1, by simp⟩

/-- A concrete digest (32 bytes of value 2) for witness instances. -/
def sumB : Sha256Sum := ⟨List.replicate 32 2, by simp⟩

/-- A concrete result stream for witness instances: a left success, a right
success with the same digest, and an error result. -/
def rsW : List WorkResult :=
  [⟨.left "a", .ok sumA⟩, ⟨.right "b", .ok sumA⟩, ⟨.left "c", .error "boom"⟩]

/-- A concrete digest function for witnesses: the first 32 bytes of the
content padded with zeros. -/
def shaW (bytes : List Nat) : Sha256Sum :=
  ⟨(bytes ++ List.replicate 32 0).take 32, by
    simp [List.length_take]⟩

/-- A concrete forest for the claim-C2 witness: a directory holding a file
and a symlink, next to a top-level file. -/
def rootsW : List FsTree :=
  [FsTree.dir "d" [FsTree.file "x", FsTree.symlink "s"], FsTree.file "y"]

/-! Bucket lemmas. -/

theorem containsKey_iff (m : HashBucket) (k : Sha256Sum) :
    containsKey m k = true ↔ k ∈ keysOf m := by
  induction m with
  | nil => simp [containsKey, getValue?, keysOf]
  | cons e rest ih =>
    by_cases h : e.1 = k
    · simp [containsKey, getValue?, keysOf, h]
    · have hk : ¬(k = e.1) := fun hk => h hk.symm
      simpa [containsKey, getValue?, keysOf, h, hk] using ih

theorem getValue?_eq_some (m : HashBucket) (k : Sha256Sum)
    (h : containsKey m k = true) : getValue? m k = some (getD m k) := by
  unfold containsKey at h
  cases hv : getValue? m k with
  | none => rw [hv] at h; simp at h
  | some v => simp [getD, hv]

theorem removeEntry_fst (m : HashBucket) (k : Sha256Sum) :
    (removeEntry m k).1 = getValue? m k := by
  induction m with
  | nil => rfl
  | cons e rest ih =>
    by_cases h : e.1 = k
    · simp [removeEntry, getValue?, h]
    · simp [removeEntry, getValue?, h, ih]

theorem filter_ne_key_eq_self (m : HashBucket) (k : Sha256Sum)
    (h : k ∉ keysOf m) : m.filter (fun e => !(decide (e.1 = k))) = m := by
  apply List.filter_eq_self.mpr
  intro e he
  have hmem : e.1 ∈ keysOf m := List.mem_map_of_mem Prod.fst he
  have hne : e.1 ≠ k := fun hk => h (hk ▸ hmem)
  simp [hne]

theorem removeEntry_snd (m : HashBucket) (k : Sha256Sum)
    (hm : (keysOf m).Nodup) :
    (removeEntry m k).2 = m.filter (fun e => !(decide (e.1 = k))) := by
  induction m with
  | nil => rfl
  | cons e rest ih =>
    simp only [keysOf, List.map_cons, List.nodup_cons] at hm
    obtain ⟨hnotin, hrest⟩ := hm
    by_cases h : e.1 = k
    · have hnot : k ∉ keysOf rest := by
        subst h; simpa [keysOf] using hnotin
      simp [removeEntry, h, List.filter_cons,
        filter_ne_key_eq_self rest k hnot]
    · simp [removeEntry, h, List.filter_cons, ih (by simpa [keysOf] using hrest)]

theorem keysOf_filter (m : HashBucket) (q : Sha256Sum → Bool) :
    keysOf (m.filter (fun e => q e.1)) = (keysOf m).filter q := by
  induction m with
  | nil => rfl
  | cons e rest ih =>
    by_cases h : q e.1
    · simp [keysOf, List.filter_cons, h] at ih ⊢; exact ih
    · simp [keysOf, List.filter_cons, h] at ih ⊢; exact ih

theorem getValue?_filter (m : HashBucket) (q : Sha256Sum → Bool)
    (k : Sha256Sum) (hq : q k = true) :
    getValue? (m.filter (fun e => q e.1)) k = getValue? m k := by
  induction m with
  | nil => rfl
  | cons e rest ih =>
    by_cases h : e.1 = k
    · have hqe : q e.1 = true := by rw [h]; exact hq
      simp [List.filter_cons, hqe, hq, getValue?, h]
    · by_cases h2 : q e.1
      · simp [List.filter_cons, h2, getValue?, h, ih]
      · simp [List.filter_cons, h2, getValue?, h, ih]

theorem containsKey_filter (m : HashBucket) (q : Sha256Sum → Bool)
    (k : Sha256Sum) (hq : q k = true) :
    containsKey (m.filter (fun e => q e.1)) k = containsKey m k := by
  unfold containsKey
  rw [getValue?_filter m q k hq]

theorem getD_filter (m : HashBucket) (q : Sha256Sum → Bool)
    (k : Sha256Sum) (hq : q k = true) :
    getD (m.filter (fun e => q e.1)) k = getD m k := by
  unfold getD
  rw [getValue?_filter m q k hq]

theorem keysOf_filter_ne (m : HashBucket) (k : Sha256Sum) :
    keysOf (m.filter (fun e => !(decide (e.1 = k)))) =
      (keysOf m).filter (fun x => !(decide (x = k))) :=
  keysOf_filter m (fun x => !(decide (x = k)))

theorem nodup_erase (m : HashBucket) (k : Sha256Sum)
    (h : (keysOf m).Nodup) :
    (keysOf (m.filter (fun e => !(decide (e.1 = k))))).Nodup := by
  rw [keysOf_filter_ne]
  exact h.filter _

theorem containsKey_erase (m : HashBucket) (k k' : Sha256Sum) (h : k' ≠ k) :
    containsKey (m.filter (fun e => !(decide (e.1 = k)))) k' =
      containsKey m k' :=
  containsKey_filter m (fun x => !(decide (x = k))) k' (by simp [h])

theorem getD_erase (m : HashBucket) (k k' : Sha256Sum) (h : k' ≠ k) :
    getD (m.filter (fun e => !(decide (e.1 = k)))) k' = getD m k' :=
  getD_filter m (fun x => !(decide (x = k))) k' (by simp [h])

/-- The loop of `split_into_locations` on a collection of distinct digests
that occur in both maps: no `unwrap` panics, the pairs are exactly each
digest's two path lists, and the remaining maps hold exactly the entries
whose digests were not paired. -/
theorem removeMatches_eq (ks : List Sha256Sum) (l r : HashBucket)
    (hl : (keysOf l).Nodup) (hr : (keysOf r).Nodup) (hks : ks.Nodup)
    (hmem : ∀ k ∈ ks, containsKey l k = true ∧ containsKey r k = true) :
    removeMatches ks l r =
      some (ks.map (fun k => (getD l k, getD r k)),
            l.filter (fun e => !(decide (e.1 ∈ ks))),
            r.filter (fun e => !(decide (e.1 ∈ ks)))) := by
  induction ks generalizing l r with
  | nil => simp [removeMatches]
  | cons k ks ih =>
    obtain ⟨hkl, hkr⟩ := hmem k (List.mem_cons_self _ _)
    obtain ⟨hknotin, hksnd⟩ := List.nodup_cons.mp hks
    rcases hR1 : removeEntry l k with ⟨v1, l2⟩
    rcases hR2 : removeEntry r k with ⟨v2, r2⟩
    have hv1 : v1 = some (getD l k) := by
      rw [← getValue?_eq_some l k hkl, ← removeEntry_fst l k, hR1]
    have hv2 : v2 = some (getD r k) := by
      rw [← getValue?_eq_some r k hkr, ← removeEntry_fst r k, hR2]
    have hl2 : l2 = l.filter (fun e => !(decide (e.1 = k))) := by
      rw [← removeEntry_snd l k hl, hR1]
    have hr2 : r2 = r.filter (fun e => !(decide (e.1 = k))) := by
      rw [← removeEntry_snd r k hr, hR2]
    subst hv1 hv2
    have hihyp : ∀ k' ∈ ks, containsKey l2 k' = true ∧ containsKey r2 k' = true := by
      intro k' hk'
      have hne : k' ≠ k := fun hkk => hknotin (hkk ▸ hk')
      obtain ⟨c1, c2⟩ := hmem k' (List.mem_cons_of_mem _ hk')
      constructor
      · rw [hl2, containsKey_erase l k k' hne]; exact c1
      · rw [hr2, containsKey_erase r k k' hne]; exact c2
    have hihL : (keysOf l2).Nodup := by rw [hl2]; exact nodup_erase l k hl
    have hihR : (keysOf r2).Nodup := by rw [hr2]; exact nodup_erase r k hr
    have hrec := ih l2 r2 hihL hihR hksnd hihyp
    simp only [removeMatches, hR1, hR2, hrec]
    have hmap : ks.map (fun k' => (getD l2 k', getD r2 k')) =
        ks.map (fun k' => (getD l k', getD r k')) := by
      apply List.map_congr_left
      intro k' hk'
      have hne : k' ≠ k := fun hkk => hknotin (hkk ▸ hk')
      rw [hl2, hr2, getD_erase l k k' hne, getD_erase r k k' hne]
    have hboolEq : ∀ x : Sha256Sum,
        (!(decide (x ∈ ks)) && !(decide (x = k))) = !(decide (x ∈ k :: ks)) := by
      intro x
      by_cases h1 : x = k <;> by_cases h2 : x ∈ ks <;> simp [h1, h2]
    have hfiltL : l2.filter (fun e => !(decide (e.1 ∈ ks))) =
        l.filter (fun e => !(decide (e.1 ∈ k :: ks))) := by
      rw [hl2, List.filter_filter]
      apply List.filter_congr
      intro e _
      exact hboolEq e.1
    have hfiltR : r2.filter (fun e => !(decide (e.1 ∈ ks))) =
        r.filter (fun e => !(decide (e.1 ∈ k :: ks))) := by
      rw [hr2, List.filter_filter]
      apply List.filter_congr
      intro e _
      exact hboolEq e.1
    rw [hmap, hfiltL, hfiltR]
    simp

theorem mem_keysInBoth (l r : HashBucket) (k : Sha256Sum) :
    k ∈ keysInBoth l r ↔
      (containsKey l k = true ∧ containsKey r k = true) := by
  unfold keysInBoth
  rw [List.mem_filter, ← containsKey_iff]

/-- Full characterization of `split_into_locations` on maps with unique
keys (the `HashMap` invariant): it never panics; `both` pairs each shared
digest's two path lists, in shared-key order; `left` flattens the entries
of the left map whose digest is absent from the right map; `right`
symmetrically. -/
theorem split_into_locations_eq (l r : HashBucket)
    (hl : (keysOf l).Nodup) (hr : (keysOf r).Nodup) :
    split_into_locations l r =
      some ⟨allPaths (l.filter (fun e => !(containsKey r e.1))),
            (keysInBoth l r).map (fun k => (getD l k, getD r k)),
            allPaths (r.filter (fun e => !(containsKey l e.1)))⟩ := by
  have hnd : (keysInBoth l r).Nodup := hl.filter _
  have hmem : ∀ k ∈ keysInBoth l r,
      containsKey l k = true ∧ containsKey r k = true :=
    fun k hk => (mem_keysInBoth l r k).mp hk
  unfold split_into_locations
  rw [removeMatches_eq (keysInBoth l r) l r hl hr hnd hmem]
  have hfl : l.filter (fun e => !(decide (e.1 ∈ keysInBoth l r))) =
      l.filter (fun e => !(containsKey r e.1)) := by
    apply List.filter_congr
    intro e he
    have h1 : containsKey l e.1 = true :=
      (containsKey_iff l e.1).mpr (List.mem_map_of_mem Prod.fst he)
    have hmem2 : e.1 ∈ keysInBoth l r ↔ containsKey r e.1 = true := by
      rw [mem_keysInBoth]
      exact ⟨fun h => h.2, fun h => ⟨h1, h⟩⟩
    by_cases hb : containsKey r e.1 = true
    · simp [hmem2.mpr hb, hb]
    · have hb' : containsKey r e.1 = false := by simpa using hb
      have hnb : e.1 ∉ keysInBoth l r := fun h => hb (hmem2.mp h)
      simp [hnb, hb']
  have hfr : r.filter (fun e => !(decide (e.1 ∈ keysInBoth l r))) =
      r.filter (fun e => !(containsKey l e.1)) := by
    apply List.filter_congr
    intro e he
    have h1 : containsKey r e.1 = true :=
      (containsKey_iff r e.1).mpr (List.mem_map_of_mem Prod.fst he)
    have hmem2 : e.1 ∈ keysInBoth l r ↔ containsKey l e.1 = true := by
      rw [mem_keysInBoth]
      exact ⟨fun h => h.1, fun h => ⟨h, h1⟩⟩
    by_cases hb : containsKey l e.1 = true
    · simp [hmem2.mpr hb, hb]
    · have hb' : containsKey l e.1 = false := by simpa using hb
      have hnb : e.1 ∉ keysInBoth l r := fun h => hb (hmem2.mp h)
      simp [hnb, hb']
  rw [hfl, hfr]
  simp [allPaths]

theorem getD_cons_self (e : Sha256Sum × List PathBuf) (rest : HashBucket) :
    getD (e :: rest) e.1 = e.2 := by
  simp [getD, getValue?]

theorem getD_cons_ne (e : Sha256Sum × List PathBuf) (rest : HashBucket)
    (k : Sha256Sum) (h : ¬(e.1 = k)) : getD (e :: rest) k = getD rest k := by
  simp [getD, getValue?, h]

/-- On a map with unique keys, looking up a filtered key collection yields
exactly the values of the correspondingly filtered entries, in order. -/
theorem filtered_keys_map_getD (m : HashBucket) (q : Sha256Sum → Bool)
    (hm : (keysOf m).Nodup) :
    ((keysOf m).filter q).map (fun k => getD m k) =
      (m.filter (fun e => q e.1)).map Prod.snd := by
  induction m with
  | nil => rfl
  | cons e rest ih =>
    have hm' := hm
    simp only [keysOf, List.map_cons, List.nodup_cons] at hm'
    obtain ⟨hnotin, hrest⟩ := hm'
    have htail : ∀ k ∈ (keysOf rest).filter q,
        getD (e :: rest) k = getD rest k := by
      intro k hk
      have hkmem : k ∈ keysOf rest := (List.mem_filter.mp hk).1
      have hne : ¬(e.1 = k) := fun hh => hnotin (by simpa [keysOf, hh] using hkmem)
      exact getD_cons_ne e rest k hne
    have htl : ((keysOf rest).filter q).map (fun k => getD (e :: rest) k) =
        (rest.filter (fun x => q x.1)).map Prod.snd := by
      rw [List.map_congr_left htail]
      exact ih (by simpa [keysOf] using hrest)
    by_cases h : q e.1
    · simp only [keysOf, List.map_cons, List.filter_cons, h, if_pos,
        List.map_cons]
      rw [getD_cons_self]
      exact congrArg (List.cons e.2) (by simpa [keysOf] using htl)
    · simp only [keysOf, List.map_cons, List.filter_cons, h]
      simpa [keysOf, h] using htl

/-- The shared digests computed from the left map are, up to order, the
shared digests computed from the right map. -/
theorem keysInBoth_perm_swap (l r : HashBucket)
    (hl : (keysOf l).Nodup) (hr : (keysOf r).Nodup) :
    (keysInBoth l r).Perm
      ((keysOf r).filter (fun k => containsKey l k)) := by
  apply List.perm_of_nodup_nodup_toFinset_eq (hl.filter _) (hr.filter _)
  apply Finset.ext
  intro k
  simp only [List.mem_toFinset, mem_keysInBoth, List.mem_filter,
    ← containsKey_iff]
  tauto

/-- Claim C1: on fully populated buckets (association maps with the
`HashMap` unique-key invariant), `split_into_locations` partitions the
inputs: it succeeds; `both` holds, for each digest present in both maps,
exactly one pair made of that digest's left path list and right path list
(one entry per shared digest — the pair list is indexed by the duplicate-free
shared-key collection); `left` is exactly the concatenation of the path lists
of digests present only in the left map, `right` symmetrically; and the
left-only paths together with the left halves of `both` are exactly the
left-side input paths, each counted once (a permutation, hence equal as sets
with no overlap), symmetrically for right. -/
theorem split_into_locations_partition (l r : HashBucket)
    (hl : (keysOf l).Nodup) (hr : (keysOf r).Nodup) :
    ∃ locs, split_into_locations l r = some locs ∧
      locs.both = (keysInBoth l r).map (fun k => (getD l k, getD r k)) ∧
      (keysInBoth l r).Nodup ∧
      (∀ k, k ∈ keysInBoth l r ↔
        (containsKey l k = true ∧ containsKey r k = true)) ∧
      locs.left = allPaths (l.filter (fun e => !(containsKey r e.1))) ∧
      locs.right = allPaths (r.filter (fun e => !(containsKey l e.1))) ∧
      (locs.left ++ (locs.both.map Prod.fst).flatten).Perm (allPaths l) ∧
      (locs.right ++ (locs.both.map Prod.snd).flatten).Perm (allPaths r) := by
  refine ⟨_, split_into_locations_eq l r hl hr, rfl, hl.filter _,
    fun k => mem_keysInBoth l r k, rfl, rfl, ?_, ?_⟩
  · -- left-side permutation
    have hfst : ((keysInBoth l r).map
        (fun k => (getD l k, getD r k))).map Prod.fst =
        (l.filter (fun e => containsKey r e.1)).map Prod.snd := by
      rw [List.map_map]
      exact filtered_keys_map_getD l (fun k => containsKey r k) hl
    simp only [hfst, allPaths]
    rw [← List.flatten_append, ← List.map_append]
    have hperm : (l.filter (fun e => !(containsKey r e.1)) ++
        l.filter (fun e => containsKey r e.1)).Perm l := by
      simpa using List.filter_append_perm (fun e => !(containsKey r e.1)) l
    exact (hperm.map Prod.snd).flatten
  · -- right-side permutation
    have hsnd : ((keysInBoth l r).map
        (fun k => (getD l k, getD r k))).map Prod.snd =
        (keysInBoth l r).map (fun k => getD r k) := by
      rw [List.map_map]
      rfl
    have hswap := (keysInBoth_perm_swap l r hl hr).map (fun k => getD r k)
    have hkrb : ((keysOf r).filter (fun k => containsKey l k)).map
        (fun k => getD r k) =
        (r.filter (fun e => containsKey l e.1)).map Prod.snd :=
      filtered_keys_map_getD r (fun k => containsKey l k) hr
    rw [hkrb] at hswap
    simp only [hsnd, allPaths]
    refine List.Perm.trans (List.Perm.append_left _ hswap.flatten) ?_
    rw [← List.flatten_append, ← List.map_append]
    have hperm : (r.filter (fun e => !(containsKey l e.1)) ++
        r.filter (fun e => containsKey l e.1)).Perm r := by
      simpa using List.filter_append_perm (fun e => !(containsKey l e.1)) r
    exact (hperm.map Prod.snd).flatten

/-- Witness for the claim-C1 theorem at concrete buckets: the left map holds
digests `sumA` (path `a1`) and `sumB` (path `b1`), the right map holds
`sumA` (path `r1`). -/
theorem split_into_locations_partition_witness :
    ((keysOf [(sumA, ["a1"]), (sumB, ["b1"])]).Nodup ∧
      (keysOf [(sumA, ["r1"])]).Nodup) ∧
    (∃ locs,
      split_into_locations [(sumA, ["a1"]), (sumB, ["b1"])] [(sumA, ["r1"])] =
        some locs ∧
      locs.both = (keysInBoth [(sumA, ["a1"]), (sumB, ["b1"])] [(sumA, ["r1"])]).map
        (fun k => (getD [(sumA, ["a1"]), (sumB, ["b1"])] k,
                   getD [(sumA, ["r1"])] k)) ∧
      (keysInBoth [(sumA, ["a1"]), (sumB, ["b1"])] [(sumA, ["r1"])]).Nodup ∧
      (∀ k, k ∈ keysInBoth [(sumA, ["a1"]), (sumB, ["b1"])] [(sumA, ["r1"])] ↔
        (containsKey [(sumA, ["a1"]), (sumB, ["b1"])] k = true ∧
         containsKey [(sumA, ["r1"])] k = true)) ∧
      locs.left = allPaths ([(sumA, ["a1"]), (sumB, ["b1"])].filter
        (fun e => !(containsKey [(sumA, ["r1"])] e.1))) ∧
      locs.right = allPaths ([(sumA, ["r1"])].filter
        (fun e => !(containsKey [(sumA, ["a1"]), (sumB, ["b1"])] e.1))) ∧
      (locs.left ++ (locs.both.map Prod.fst).flatten).Perm
        (allPaths [(sumA, ["a1"]), (sumB, ["b1"])]) ∧
      (locs.right ++ (locs.both.map Prod.snd).flatten).Perm
        (allPaths [(sumA, ["r1"])])) :=
  ⟨⟨by decide, by decide⟩,
    split_into_locations_partition [(sumA, ["a1"]), (sumB, ["b1"])]
      [(sumA, ["r1"])] (by decide) (by decide)⟩

/-- Claim C10: on maps with the `HashMap` unique-key invariant, every digest
in `keys_in_both` is removable from both maps (the `remove` calls return
`Some`), the pairing loop as a whole never hits a `None`, and hence
`split_into_locations` completes without panicking. -/
theorem split_unwraps_never_panic (l r : HashBucket)
    (hl : (keysOf l).Nodup) (hr : (keysOf r).Nodup) :
    (∀ k, k ∈ keysInBoth l r →
      (removeEntry l k).1.isSome = true ∧ (removeEntry r k).1.isSome = true) ∧
    (removeMatches (keysInBoth l r) l r).isSome = true ∧
    (split_into_locations l r).isSome = true := by
  refine ⟨?_, ?_, ?_⟩
  · intro k hk
    obtain ⟨c1, c2⟩ := (mem_keysInBoth l r k).mp hk
    constructor
    · rw [removeEntry_fst, getValue?_eq_some l k c1]; rfl
    · rw [removeEntry_fst, getValue?_eq_some r k c2]; rfl
  · rw [removeMatches_eq (keysInBoth l r) l r hl hr (hl.filter _)
      (fun k hk => (mem_keysInBoth l r k).mp hk)]
    rfl
  · rw [split_into_locations_eq l r hl hr]
    rfl

/-- Witness for the claim-C10 theorem at concrete buckets sharing the
digest `sumA`. -/
theorem split_unwraps_never_panic_witness :
    ((keysOf [(sumA, ["x"])]).Nodup ∧
      (keysOf [(sumA, ["y"]), (sumB, ["z"])]).Nodup) ∧
    ((∀ k, k ∈ keysInBoth [(sumA, ["x"])] [(sumA, ["y"]), (sumB, ["z"])] →
      (removeEntry [(sumA, ["x"])] k).1.isSome = true ∧
      (removeEntry [(sumA, ["y"]), (sumB, ["z"])] k).1.isSome = true) ∧
    (removeMatches (keysInBoth [(sumA, ["x"])] [(sumA, ["y"]), (sumB, ["z"])])
      [(sumA, ["x"])] [(sumA, ["y"]), (sumB, ["z"])]).isSome = true ∧
    (split_into_locations [(sumA, ["x"])]
      [(sumA, ["y"]), (sumB, ["z"])]).isSome = true) :=
  ⟨⟨by decide, by decide⟩,
    split_unwraps_never_panic [(sumA, ["x"])] [(sumA, ["y"]), (sumB, ["z"])]
      (by decide) (by decide)⟩

/-! Section: Collector lemmas -/

theorem getD_add (m : HashBucket) (h : Sha256Sum) (p : PathBuf)
    (d : Sha256Sum) :
    getD (add_to_result_hash_map m h p) d =
      getD m d ++ (if h = d then [p] else []) := by
  induction m with
  | nil =>
    by_cases hd : h = d <;>
      simp [add_to_result_hash_map, getD, getValue?, hd]
  | cons e rest ih =>
    obtain ⟨k0, v0⟩ := e
    by_cases he : k0 = h
    · subst he
      by_cases hd : k0 = d <;>
        simp [add_to_result_hash_map, getD, getValue?, hd]
    · by_cases hd : k0 = d
      · subst hd
        have hhd : ¬(h = k0) := fun hh => he hh.symm
        simp [add_to_result_hash_map, getD, getValue?, he, hhd]
      · simp only [add_to_result_hash_map, if_neg he]
        rw [getD_cons_ne ⟨k0, v0⟩ (add_to_result_hash_map rest h p) d hd,
          getD_cons_ne ⟨k0, v0⟩ rest d hd]
        exact ih

theorem mem_keysOf_add (m : HashBucket) (h : Sha256Sum) (p : PathBuf)
    (k : Sha256Sum) :
    k ∈ keysOf (add_to_result_hash_map m h p) ↔ k ∈ keysOf m ∨ k = h := by
  induction m with
  | nil => simp [add_to_result_hash_map, keysOf]
  | cons e rest ih =>
    obtain ⟨k0, v0⟩ := e
    by_cases he : k0 = h
    · subst he
      rw [show add_to_result_hash_map ((k0, v0) :: rest) k0 p =
          (k0, v0 ++ [p]) :: rest from by simp [add_to_result_hash_map]]
      simp only [keysOf, List.map_cons, List.mem_cons]
      tauto
    · simp only [keysOf, List.map_cons, List.mem_cons] at ih
      simp only [add_to_result_hash_map, if_neg he, keysOf, List.map_cons,
        List.mem_cons]
      rw [ih]
      tauto

theorem nodup_keysOf_add (m : HashBucket) (h : Sha256Sum) (p : PathBuf)
    (hm : (keysOf m).Nodup) :
    (keysOf (add_to_result_hash_map m h p)).Nodup := by
  induction m with
  | nil => simp [add_to_result_hash_map, keysOf]
  | cons e0 rest ih =>
    simp only [keysOf, List.map_cons, List.nodup_cons] at hm
    obtain ⟨hnotin, hrest⟩ := hm
    by_cases h0 : e0.1 = h
    · simp only [add_to_result_hash_map, if_pos h0, keysOf, List.map_cons,
        List.nodup_cons]
      exact ⟨hnotin, hrest⟩
    · simp only [add_to_result_hash_map, if_neg h0, keysOf, List.map_cons,
        List.nodup_cons]
      constructor
      · intro hc
        rcases (mem_keysOf_add rest h p e0.1).mp hc with hc2 | hc2
        · exact hnotin hc2
        · exact h0 hc2
      · exact ih hrest

theorem values_nonempty_add (m : HashBucket) (h : Sha256Sum) (p : PathBuf)
    (hm : ∀ e ∈ m, e.2 ≠ []) :
    ∀ e ∈ add_to_result_hash_map m h p, e.2 ≠ [] := by
  induction m with
  | nil =>
    intro e he
    simp only [add_to_result_hash_map, List.mem_singleton] at he
    subst he
    simp
  | cons e0 rest ih =>
    intro e he
    by_cases h0 : e0.1 = h
    · simp only [add_to_result_hash_map, if_pos h0, List.mem_cons] at he
      rcases he with he | he
      · subst he
        simp
      · exact hm e (List.mem_cons_of_mem _ he)
    · simp only [add_to_result_hash_map, if_neg h0, List.mem_cons] at he
      rcases he with he | he
      · subst he
        exact hm e (List.mem_cons_self _ _)
      · exact ih (fun x hx => hm x (List.mem_cons_of_mem _ hx)) e he

/-- The path list a successful lookup returns is one of the map's stored
value lists. -/
theorem getD_mem_of_contains (m : HashBucket) (k : Sha256Sum)
    (h : containsKey m k = true) : ∃ e, e ∈ m ∧ e.1 = k ∧ e.2 = getD m k := by
  induction m with
  | nil => simp [containsKey, getValue?] at h
  | cons e rest ih =>
    by_cases hk : e.1 = k
    · exact ⟨e, List.mem_cons_self _ _, hk, by simp [getD, getValue?, hk]⟩
    · have h' : containsKey rest k = true := by
        simpa [containsKey, getValue?, hk] using h
      obtain ⟨e2, hmem, hk2, hv2⟩ := ih h'
      exact ⟨e2, List.mem_cons_of_mem _ hmem,
        hk2, by rw [getD_cons_ne e rest k hk]; exact hv2⟩

theorem collect_foldl_left (rs : List WorkResult) (s : CollectState)
    (d : Sha256Sum) :
    getD (rs.foldl collectStep s).left d =
      getD s.left d ++
        rs.filterMap (fun wr =>
          match wr.path, wr.result with
          | PathLocation.left p, Except.ok h => if h = d then some p else none
          | _, _ => none) := by
  induction rs generalizing s with
  | nil => simp
  | cons wr rs ih =>
    rcases wr with ⟨path, result⟩
    cases result with
    | error e =>
      cases path <;>
        simp [List.foldl_cons, collectStep, ih, List.filterMap_cons]
    | ok h =>
      cases path with
      | left p =>
        simp only [List.foldl_cons, collectStep]
        rw [ih, getD_add]
        by_cases hd : h = d <;>
          simp [List.filterMap_cons, hd, List.append_assoc]
      | right p =>
        simp [List.foldl_cons, collectStep, ih, List.filterMap_cons]

theorem collect_foldl_right (rs : List WorkResult) (s : CollectState)
    (d : Sha256Sum) :
    getD (rs.foldl collectStep s).right d =
      getD s.right d ++
        rs.filterMap (fun wr =>
          match wr.path, wr.result with
          | PathLocation.right p, Except.ok h => if h = d then some p else none
          | _, _ => none) := by
  induction rs generalizing s with
  | nil => simp
  | cons wr rs ih =>
    rcases wr with ⟨path, result⟩
    cases result with
    | error e =>
      cases path <;>
        simp [List.foldl_cons, collectStep, ih, List.filterMap_cons]
    | ok h =>
      cases path with
      | left p =>
        simp [List.foldl_cons, collectStep, ih, List.filterMap_cons]
      | right p =>
        simp only [List.foldl_cons, collectStep]
        rw [ih, getD_add]
        by_cases hd : h = d <;>
          simp [List.filterMap_cons, hd, List.append_assoc]

theorem collect_foldl_diag (rs : List WorkResult) (s : CollectState) :
    (rs.foldl collectStep s).diagnostics =
      s.diagnostics ++ rs.filter WorkResult.isErr := by
  induction rs generalizing s with
  | nil => simp
  | cons wr rs ih =>
    rcases wr with ⟨path, result⟩
    cases result with
    | error e =>
      cases path <;>
        simp [List.foldl_cons, collectStep, ih, List.filter_cons,
          WorkResult.isErr, List.append_assoc]
    | ok h =>
      cases path <;>
        simp [List.foldl_cons, collectStep, ih, List.filter_cons,
          WorkResult.isErr]

/-- Claim C7: draining any result stream, an error result is appended to
the diagnostic sink (and, the digest lists being built only from success
results, never enters either bucket), while each success result appends
its path at the end of its side's bucket list for its digest: for every
digest, each bucket's list is exactly the stream's matching success paths
in stream (discovery) order, and the sink is exactly the error results in
stream order. -/
theorem collector_buckets_spec (rs : List WorkResult) (d : Sha256Sum) :
    getD (collectResults rs).left d =
      rs.filterMap (fun wr =>
        match wr.path, wr.result with
        | PathLocation.left p, Except.ok h => if h = d then some p else none
        | _, _ => none) ∧
    getD (collectResults rs).right d =
      rs.filterMap (fun wr =>
        match wr.path, wr.result with
        | PathLocation.right p, Except.ok h => if h = d then some p else none
        | _, _ => none) ∧
    (collectResults rs).diagnostics = rs.filter WorkResult.isErr := by
  refine ⟨?_, ?_, ?_⟩
  · rw [collectResults, collect_foldl_left]
    simp [getD, getValue?]
  · rw [collectResults, collect_foldl_right]
    simp [getD, getValue?]
  · rw [collectResults, collect_foldl_diag]
    simp

theorem collect_invariant (rs : List WorkResult) (s : CollectState)
    (hL : (∀ e ∈ s.left, e.2 ≠ []) ∧ (keysOf s.left).Nodup)
    (hR : (∀ e ∈ s.right, e.2 ≠ []) ∧ (keysOf s.right).Nodup) :
    ((∀ e ∈ (rs.foldl collectStep s).left, e.2 ≠ []) ∧
      (keysOf (rs.foldl collectStep s).left).Nodup) ∧
    ((∀ e ∈ (rs.foldl collectStep s).right, e.2 ≠ []) ∧
      (keysOf (rs.foldl collectStep s).right).Nodup) := by
  induction rs generalizing s with
  | nil => exact ⟨hL, hR⟩
  | cons wr rs ih =>
    rcases wr with ⟨path, result⟩
    cases result with
    | error e =>
      cases path <;>
        · simp only [List.foldl_cons, collectStep]
          exact ih _ hL hR
    | ok h =>
      cases path with
      | left p =>
        simp only [List.foldl_cons, collectStep]
        exact ih _ ⟨values_nonempty_add _ _ _ hL.1,
          nodup_keysOf_add _ _ _ hL.2⟩ hR
      | right p =>
        simp only [List.foldl_cons, collectStep]
        exact ih _ hL ⟨values_nonempty_add _ _ _ hR.1,
          nodup_keysOf_add _ _ _ hR.2⟩

/-- Claim C9: every path list stored in either bucket built by the
collector is non-empty — a digest entry is only ever created together with
its first path — and consequently the reconciler succeeds on the collected
buckets with every `both` pair having two non-empty lists. -/
theorem bucket_values_nonempty (rs : List WorkResult) :
    (∀ e, e ∈ (collectResults rs).left → e.2 ≠ []) ∧
    (∀ e, e ∈ (collectResults rs).right → e.2 ≠ []) ∧
    ∃ locs,
      split_into_locations (collectResults rs).left
        (collectResults rs).right = some locs ∧
      ∀ pr, pr ∈ locs.both → pr.1 ≠ [] ∧ pr.2 ≠ [] := by
  obtain ⟨⟨hLne, hLnd⟩, ⟨hRne, hRnd⟩⟩ :=
    collect_invariant rs ⟨[], [], []⟩ ⟨by simp, by simp [keysOf]⟩
      ⟨by simp, by simp [keysOf]⟩
  refine ⟨hLne, hRne,
    ⟨_, split_into_locations_eq (collectResults rs).left
      (collectResults rs).right hLnd hRnd, ?_⟩⟩
  intro pr hpr
  obtain ⟨k, hk, hpr2⟩ := List.mem_map.mp hpr
  obtain ⟨c1, c2⟩ :=
    (mem_keysInBoth (collectResults rs).left (collectResults rs).right k).mp hk
  obtain ⟨e1, he1, _, hv1⟩ :=
    getD_mem_of_contains (collectResults rs).left k c1
  obtain ⟨e2, he2, _, hv2⟩ :=
    getD_mem_of_contains (collectResults rs).right k c2
  subst hpr2
  constructor
  · dsimp only
    rw [← hv1]
    exact hLne e1 he1
  · dsimp only
    rw [← hv2]
    exact hRne e2 he2

/-- Witness for the claim-C9 theorem: on the stream `rsW`, both buckets'
single entries are non-empty. -/
theorem bucket_values_nonempty_witness :
    ((sumA, ["a"]) : Sha256Sum × List PathBuf).2 ≠ [] ∧
    ((sumA, ["b"]) : Sha256Sum × List PathBuf).2 ≠ [] :=
  ⟨(bucket_values_nonempty rsW).1 (sumA, ["a"]) (by decide),
    (bucket_values_nonempty rsW).2.1 (sumA, ["b"]) (by decide)⟩

/-! Section: HashEngine -/

/-- Claim C3: `fingerprint_one_file` reports an open failure or a mid-stream
read failure as an error result carrying the file's own path, and otherwise
returns a success result carrying the 32-byte digest of the file's full
content; any returned digest comes from a complete read, never a partial
one. -/
theorem fingerprint_one_file_spec (sha : List Nat → Sha256Sum)
    (path : PathLocation) (fd : FileData) :
    (fingerprint_one_file sha path fd).path = path ∧
    (∀ e, fd.openResult = .error e →
      fingerprint_one_file sha path fd = WorkResult.from_err path e) ∧
    (∀ cs e, fd.openResult = .ok (.failAfter cs e) →
      fingerprint_one_file sha path fd = WorkResult.from_err path e) ∧
    (∀ cs, fd.openResult = .ok (.complete cs) →
      fingerprint_one_file sha path fd =
        WorkResult.from_hash path (sha cs.flatten)) ∧
    (∀ d, (fingerprint_one_file sha path fd).result = .ok d →
      (∃ cs, fd.openResult = .ok (.complete cs) ∧ d = sha cs.flatten) ∧
      d.1.length = 32) := by
  rcases fd with ⟨openRes⟩
  cases openRes with
  | error e0 =>
    refine ⟨rfl, ?_, ?_, ?_, ?_⟩
    · intro e he
      injection he with h
      subst h
      rfl
    · intro cs e he
      exact Except.noConfusion he
    · intro cs he
      exact Except.noConfusion he
    · intro d hd
      exact Except.noConfusion hd
  | ok ro =>
    cases ro with
    | complete cs0 =>
      refine ⟨rfl, ?_, ?_, ?_, ?_⟩
      · intro e he
        exact Except.noConfusion he
      · intro cs e he
        injection he with h
        exact ReadOutcome.noConfusion h
      · intro cs he
        injection he with h
        injection h with h2
        subst h2
        rfl
      · intro d hd
        have hd2 : Except.ok (sha cs0.flatten) = Except.ok d := hd
        injection hd2 with h
        exact ⟨⟨cs0, rfl, h.symm⟩, by rw [← h]; exact (sha cs0.flatten).2⟩
    | failAfter cs0 e0 =>
      refine ⟨rfl, ?_, ?_, ?_, ?_⟩
      · intro e he
        exact Except.noConfusion he
      · intro cs e he
        injection he with h
        injection h with h2 h3
        subst h3
        rfl
      · intro cs he
        injection he with h
        exact ReadOutcome.noConfusion h
      · intro d hd
        exact Except.noConfusion hd

/-- Witness for the claim-C3 theorem: a failed open yields that error with
the file's path, and a successful streamed read yields the digest of the
full content. -/
theorem fingerprint_one_file_spec_witness :
    fingerprint_one_file shaW (.left "f") ⟨.error "denied"⟩ =
      WorkResult.from_err (.left "f") "denied" ∧
    fingerprint_one_file shaW (.left "g") ⟨.ok (.complete [[1, 2], [3]])⟩ =
      WorkResult.from_hash (.left "g") (shaW [1, 2, 3]) :=
  ⟨(fingerprint_one_file_spec shaW (.left "f") ⟨.error "denied"⟩).2.1
      "denied" rfl,
    (fingerprint_one_file_spec shaW (.left "g")
      ⟨.ok (.complete [[1, 2], [3]])⟩).2.2.2.1 [[1, 2], [3]] rfl⟩

/-! Section: TreeExpander -/

theorem handleEntries_append (parent : PathLocation)
    (xs ys : List EntryResult) :
    handleEntries parent (xs ++ ys) =
      match handleEntries parent xs, handleEntries parent ys with
      | some (r1, w1), some (r2, w2) => some (r1 ++ r2, w1 ++ w2)
      | _, _ => none := by
  induction xs with
  | nil =>
    cases h : handleEntries parent ys with
    | none => simp [handleEntries, h]
    | some pr =>
      rcases pr with ⟨r2, w2⟩
      simp [handleEntries, h]
  | cons x xs ih =>
    simp only [List.cons_append, handleEntries, List.append_eq]
    cases hx : entryStep parent x with
    | none => rfl
    | some pr =>
      rcases pr with ⟨r1, w1⟩
      rw [ih]
      cases h1 : handleEntries parent xs with
      | none =>
        cases h2 : handleEntries parent ys with
        | none => rfl
        | some pr2 => rcases pr2 with ⟨rb, wb⟩; rfl
      | some pr1 =>
        rcases pr1 with ⟨ra, wa⟩
        cases h2 : handleEntries parent ys with
        | none => rfl
        | some pr2 =>
          rcases pr2 with ⟨rb, wb⟩
          simp [List.append_assoc]

/-- Claim C4: during directory expansion, a per-entry enumeration failure
produces an error result tagged with the parent directory's path and
expansion continues with the remaining entries; a symlink entry produces an
error result tagged with the entry's own path, is not followed (it submits
no work), and expansion continues with the remaining entries. -/
theorem handle_dir_work_error_and_symlink (parent : PathLocation)
    (es1 es2 : List EntryResult) (e : IOErr) (p : PathBuf)
    (r1 r2 : List WorkResult) (w1 w2 : List Work)
    (h1 : handleEntries parent es1 = some (r1, w1))
    (h2 : handleEntries parent es2 = some (r2, w2)) :
    handle_dir_work parent (.ok (es1 ++ Except.error e :: es2)) =
      some (r1 ++ WorkResult.from_err parent e :: r2, w1 ++ w2) ∧
    handle_dir_work parent (.ok (es1 ++ Except.ok ⟨p, .symlink⟩ :: es2)) =
      some (r1 ++
        WorkResult.from_err (parent.new_same_side p) symlinkMessage :: r2,
        w1 ++ w2) := by
  constructor
  · have hmid : handleEntries parent (Except.error e :: es2) =
        some (WorkResult.from_err parent e :: r2, w2) := by
      simp [handleEntries, entryStep, h2]
    show handleEntries parent (es1 ++ Except.error e :: es2) = _
    rw [handleEntries_append parent es1 (Except.error e :: es2), h1, hmid]
  · have hmid : handleEntries parent (Except.ok ⟨p, .symlink⟩ :: es2) =
        some (WorkResult.from_err (parent.new_same_side p)
          symlinkMessage :: r2, w2) := by
      simp [handleEntries, entryStep, h2]
    show handleEntries parent (es1 ++ Except.ok ⟨p, .symlink⟩ :: es2) = _
    rw [handleEntries_append parent es1 (Except.ok ⟨p, .symlink⟩ :: es2),
      h1, hmid]

/-- Witness for the claim-C4 theorem: between a file entry and a directory
entry, a failed entry is reported against the parent `d` and a symlink
entry `s` against itself, with the sibling file and directory still
processed. -/
theorem handle_dir_work_error_and_symlink_witness :
    handle_dir_work (.left "d")
      (.ok ([Except.ok ⟨"f", .file⟩] ++
        Except.error "gone" :: [Except.ok ⟨"g", .dir⟩])) =
      some ([] ++ WorkResult.from_err (.left "d") "gone" :: [],
        [Work.file (.left "f")] ++ [Work.directory (.left "g")]) ∧
    handle_dir_work (.left "d")
      (.ok ([Except.ok ⟨"f", .file⟩] ++
        Except.ok ⟨"s", .symlink⟩ :: [Except.ok ⟨"g", .dir⟩])) =
      some ([] ++
        WorkResult.from_err ((PathLocation.left "d").new_same_side "s")
          symlinkMessage :: [],
        [Work.file (.left "f")] ++ [Work.directory (.left "g")]) :=
  handle_dir_work_error_and_symlink (.left "d")
    [Except.ok ⟨"f", .file⟩] [Except.ok ⟨"g", .dir⟩] "gone" "s"
    [] [] [Work.file (.left "f")] [Work.directory (.left "g")] rfl rfl

/-! Section: Root resolution -/

theorem enqueue_append (factory : PathBuf → PathLocation)
    (xs ys : List RootInfo) :
    enqueue_initial_work_for_side factory (xs ++ ys) =
      match enqueue_initial_work_for_side factory xs,
        enqueue_initial_work_for_side factory ys with
      | some (a1, b1), some (a2, b2) => some (a1 ++ a2, b1 ++ b2)
      | _, _ => none := by
  induction xs with
  | nil =>
    cases h : enqueue_initial_work_for_side factory ys with
    | none => simp [enqueue_initial_work_for_side, h]
    | some pr =>
      rcases pr with ⟨a2, b2⟩
      simp [enqueue_initial_work_for_side, h]
  | cons x xs ih =>
    simp only [List.cons_append, enqueue_initial_work_for_side,
      List.append_eq]
    cases hx : rootStep factory x with
    | none => rfl
    | some pr =>
      rcases pr with ⟨a1, b1⟩
      rw [ih]
      cases h1 : enqueue_initial_work_for_side factory xs with
      | none =>
        cases h2 : enqueue_initial_work_for_side factory ys with
        | none => rfl
        | some pr2 => rcases pr2 with ⟨ab, bb⟩; rfl
      | some pr1 =>
        rcases pr1 with ⟨aa, ba⟩
        cases h2 : enqueue_initial_work_for_side factory ys with
        | none => rfl
        | some pr2 =>
          rcases pr2 with ⟨ab, bb⟩
          simp [List.append_assoc]

/-- Counterexample to claim C5: a configured root that is neither a symlink
nor stat-failing nor a directory nor a regular file (for example a device
node) hits the `assert!(metadata.is_file(), ...)` in
`enqueue_initial_work_for_side`, aborting the process (`none`); it is not
warned about and skipped, and the following regular-file root `q` is never
processed. -/
theorem root_other_kind_aborts :
    enqueue_initial_work_for_side PathLocation.left
      [⟨"dev0", false, .ok .other⟩, ⟨"q", false, .ok .file⟩] = none := rfl

/-- Claim C5 as amended: for every configured (side, root): a symlink root
is warned about and skipped with processing continuing; a root that cannot
be stat-ed is warned about and skipped with processing continuing; a
directory root emits a `Work::Directory`; a regular-file root emits a
`Work::File`; but a root of any other filesystem object type aborts the
process via an assertion failure rather than being warned about and
skipped. -/
theorem enqueue_initial_work_behavior (factory : PathBuf → PathLocation)
    (rs1 rs2 : List RootInfo) (ws1 ws2 : List RootWarning)
    (wk1 wk2 : List Work)
    (h1 : enqueue_initial_work_for_side factory rs1 = some (ws1, wk1))
    (h2 : enqueue_initial_work_for_side factory rs2 = some (ws2, wk2)) :
    (∀ p md, enqueue_initial_work_for_side factory
        (rs1 ++ ⟨p, true, md⟩ :: rs2) =
      some (ws1 ++ RootWarning.symlinkRoot p :: ws2, wk1 ++ wk2)) ∧
    (∀ p e, enqueue_initial_work_for_side factory
        (rs1 ++ ⟨p, false, .error e⟩ :: rs2) =
      some (ws1 ++ RootWarning.statFailure p e :: ws2, wk1 ++ wk2)) ∧
    (∀ p, enqueue_initial_work_for_side factory
        (rs1 ++ ⟨p, false, .ok .dir⟩ :: rs2) =
      some (ws1 ++ ws2, wk1 ++ Work.directory (factory p) :: wk2)) ∧
    (∀ p, enqueue_initial_work_for_side factory
        (rs1 ++ ⟨p, false, .ok .file⟩ :: rs2) =
      some (ws1 ++ ws2, wk1 ++ Work.file (factory p) :: wk2)) ∧
    (∀ p, enqueue_initial_work_for_side factory
        (rs1 ++ ⟨p, false, .ok .other⟩ :: rs2) = none) := by
  refine ⟨?_, ?_, ?_, ?_, ?_⟩
  · intro p md
    have hmid : enqueue_initial_work_for_side factory (⟨p, true, md⟩ :: rs2) =
        some (RootWarning.symlinkRoot p :: ws2, wk2) := by
      simp [enqueue_initial_work_for_side, rootStep, h2]
    rw [enqueue_append, h1, hmid]
  · intro p e
    have hmid : enqueue_initial_work_for_side factory
        (⟨p, false, .error e⟩ :: rs2) =
        some (RootWarning.statFailure p e :: ws2, wk2) := by
      simp [enqueue_initial_work_for_side, rootStep, h2]
    rw [enqueue_append, h1, hmid]
  · intro p
    have hmid : enqueue_initial_work_for_side factory
        (⟨p, false, .ok .dir⟩ :: rs2) =
        some (ws2, Work.directory (factory p) :: wk2) := by
      simp [enqueue_initial_work_for_side, rootStep, h2]
    rw [enqueue_append, h1, hmid]
  · intro p
    have hmid : enqueue_initial_work_for_side factory
        (⟨p, false, .ok .file⟩ :: rs2) =
        some (ws2, Work.file (factory p) :: wk2) := by
      simp [enqueue_initial_work_for_side, rootStep, h2]
    rw [enqueue_append, h1, hmid]
  · intro p
    have hmid : enqueue_initial_work_for_side factory
        (⟨p, false, .ok .other⟩ :: rs2) = none := by
      simp [enqueue_initial_work_for_side, rootStep]
    rw [enqueue_append, h1, hmid]

/-- Witness for the amended claim-C5 theorem: after a regular-file root
`f1`, a symlink root `s` is warned and skipped while processing continues,
and a root `dev0` of another object type aborts. -/
theorem enqueue_initial_work_behavior_witness :
    enqueue_initial_work_for_side PathLocation.left
      ([⟨"f1", false, .ok .file⟩] ++ ⟨"s", true, .ok .file⟩ :: []) =
      some ([] ++ RootWarning.symlinkRoot "s" :: [],
        [Work.file (.left "f1")] ++ []) ∧
    enqueue_initial_work_for_side PathLocation.left
      ([⟨"f1", false, .ok .file⟩] ++ ⟨"dev0", false, .ok .other⟩ :: []) =
      none :=
  ⟨(enqueue_initial_work_behavior PathLocation.left
      [⟨"f1", false, .ok .file⟩] [] [] [] [Work.file (.left "f1")] []
      rfl rfl).1 "s" (.ok .file),
    (enqueue_initial_work_behavior PathLocation.left
      [⟨"f1", false, .ok .file⟩] [] [] [] [Work.file (.left "f1")] []
      rfl rfl).2.2.2.2 "dev0"⟩

/-! Section: Argument requirements -/

/-- Counterexample to claim C6: the canonical single-side input — one left
root, no right roots — is rejected by argument parsing (`required = true`
on both `left` and `right`), so the program never runs on it. -/
theorem single_side_args_rejected :
    argsAccepted ⟨["a"], [], false, false, false⟩ = false := rfl

/-- Claim C6 as amended: the program has no single-side mode — an
invocation is accepted exactly when both the left and the right root lists
are non-empty, so an input consisting of root paths on one side only is
rejected by the argument parser. -/
theorem args_require_both_sides (a : Args) :
    argsAccepted a = true ↔ (a.left ≠ [] ∧ a.right ≠ []) := by
  rcases a with ⟨l, r, o1, o2, o3⟩
  cases l <;> cases r <;> simp [argsAccepted]

/-- Witness for the amended claim-C6 theorem at a concrete two-sided
invocation. -/
theorem args_require_both_sides_witness :
    argsAccepted ⟨["a"], ["b"], false, false, false⟩ = true :=
  (args_require_both_sides ⟨["a"], ["b"], false, false, false⟩).mpr
    ⟨by decide, by decide⟩

/-! Section: WorkerPool size -/

/-- Claim C8: the worker pool has a fixed size equal to the detected
hardware parallelism, and equal to 2 when parallelism cannot be
detected. -/
theorem worker_pool_size (detected : Except IOErr Nat) :
    (start_worker_threads detected).length = numWorkerThreads detected ∧
    (∀ n, detected = .ok n → (start_worker_threads detected).length = n) ∧
    (∀ e, detected = .error e →
      (start_worker_threads detected).length = 2) := by
  refine ⟨by simp [start_worker_threads], ?_, ?_⟩
  · intro n h
    subst h
    simp [start_worker_threads, numWorkerThreads]
  · intro e h
    subst h
    simp [start_worker_threads, numWorkerThreads]

/-- Witness for the claim-C8 theorem: 8 detected cores give 8 workers;
detection failure gives 2 workers. -/
theorem worker_pool_size_witness :
    (start_worker_threads (.ok 8)).length = 8 ∧
    (start_worker_threads (.error "undetectable")).length = 2 :=
  ⟨(worker_pool_size (.ok 8)).2.1 8 rfl,
    (worker_pool_size (.error "undetectable")).2.2 "undetectable" rfl⟩

/-! Section: Termination of the task queue -/

theorem expandChild_work (t : FsTree) :
    ((expandChild t).map taskWork).sum = treeWork t := by
  cases t <;> simp [expandChild, taskWork, treeWork]

theorem queueWork_append (q1 q2 : List WalkTask) :
    queueWork (q1 ++ q2) = queueWork q1 + queueWork q2 := by
  simp [queueWork, List.map_append, List.sum_append]

theorem queueWork_flatMap (cs : List FsTree) :
    queueWork (cs.flatMap expandChild) = forestWork cs := by
  induction cs with
  | nil => rfl
  | cons t ts ih =>
    rw [List.flatMap_cons, queueWork_append, ih]
    show ((expandChild t).map taskWork).sum + forestWork ts = forestWork (t :: ts)
    rw [expandChild_work]
    simp [forestWork]

theorem taskWork_pos (t : WalkTask) : 1 ≤ taskWork t := by
  cases t <;> simp [taskWork]

theorem queueWork_eq_zero (q : List WalkTask) :
    queueWork q = 0 ↔ q = [] := by
  cases q with
  | nil => simp [queueWork]
  | cons t ts =>
    constructor
    · intro h
      have h1 := taskWork_pos t
      have h2 : taskWork t + (ts.map taskWork).sum = 0 := by
        simpa [queueWork] using h
      omega
    · intro h
      simp at h

/-- Every scheduler step on a non-empty queue consumes exactly one unit of
the remaining-work measure: one task is finished while its children's
entire future cost is enqueued. -/
theorem walkStep_decr (q : List WalkTask) (h : q ≠ []) :
    queueWork (walkStep q) + 1 = queueWork q := by
  cases q with
  | nil => exact absurd rfl h
  | cons t ts =>
    cases t with
    | file =>
      simp only [walkStep, queueWork, List.map_cons, List.sum_cons, taskWork]
      omega
    | dir cs =>
      simp only [walkStep]
      rw [queueWork_append, queueWork_flatMap]
      simp [queueWork, taskWork]
      omega

theorem walkStepN_nil (n : Nat) : walkStepN n [] = [] := by
  induction n with
  | zero => rfl
  | succ n ih => simpa [walkStepN, walkStep] using ih

theorem walkStepN_terminates (n : Nat) :
    ∀ q, queueWork q ≤ n → walkStepN n q = [] := by
  induction n with
  | zero =>
    intro q h
    rw [(queueWork_eq_zero q).mp (Nat.le_zero.mp h)]
    rfl
  | succ n ih =>
    intro q h
    by_cases hq : q = []
    · subst hq
      exact walkStepN_nil _
    · have hd := walkStep_decr q hq
      show walkStepN n (walkStep q) = []
      exact ih _ (by omega)

theorem walkStepN_lower (n : Nat) :
    ∀ q, queueWork q ≤ queueWork (walkStepN n q) + n := by
  induction n with
  | zero =>
    intro q
    simp [walkStepN]
  | succ n ih =>
    intro q
    by_cases hq : q = []
    · subst hq
      rw [walkStepN_nil]
      simp [queueWork]
    · have hd := walkStep_decr q hq
      have hih := ih (walkStep q)
      show queueWork q ≤ queueWork (walkStepN n (walkStep q)) + (n + 1)
      omega

theorem completionSignal_iff (q : List WalkTask) :
    completionSignal q ↔ q = [] := by
  constructor
  · exact fun h => h.1
  · intro h
    subst h
    exact ⟨rfl, rfl⟩

/-- Claim C2: over any finite, acyclic forest, the engine terminates — the
seeded queue is drained in exactly `queueWork` scheduler steps (the
remaining-work measure strictly decreases by one each step while work
remains), at which point no submission capability is live; and the queue's
completion signal (empty channel with zero live capabilities) holds at step
`m` exactly when all the work has been performed, so every worker's pull
loop ends. -/
theorem engine_terminates (roots : List FsTree) :
    completionSignal
      (walkStepN (queueWork (seedQueue roots)) (seedQueue roots)) ∧
    ∀ m, completionSignal (walkStepN m (seedQueue roots)) ↔
      queueWork (seedQueue roots) ≤ m := by
  have hmain : ∀ m, completionSignal (walkStepN m (seedQueue roots)) ↔
      queueWork (seedQueue roots) ≤ m := by
    intro m
    rw [completionSignal_iff]
    constructor
    · intro h
      have hlow := walkStepN_lower m (seedQueue roots)
      rw [h] at hlow
      simpa [queueWork] using hlow
    · intro h
      exact walkStepN_terminates m _ h
  exact ⟨(hmain _).mpr le_rfl, hmain⟩

/-- Witness for the claim-C2 theorem at the concrete forest `rootsW`. -/
theorem engine_terminates_witness :
    completionSignal
      (walkStepN (queueWork (seedQueue rootsW)) (seedQueue rootsW)) :=
  (engine_terminates rootsW).1

end FindDups
